import Mathlib

/-!
Verification of the arthouse.js timeline library (src/dist/arthouse.js).

The development shallowly embeds the three components of the library:

* `tween`   — the keyframe compiler (source lines 73-112),
* `group` / `sequence` — the timeline composer (source lines 115-189),
* `play`    — the playback synchronizer (source lines 31-70).

JavaScript numbers that stay finite are modelled as rationals (`ℚ`); the
values `Infinity`, `-Infinity` and `NaN` that the compiler can produce by
dividing are modelled explicitly by `JSVal`.  `Array.prototype.sort` with a
user comparator is modelled by the stable insertion sort `sortJS`: the
ECMAScript specification requires a stable sort and coerces a `NaN`
comparator result to `+0`, and for a consistent comparator every correct
stable sort produces the same list.
-/

namespace ArtHouse

/-- A JavaScript number as it can appear in a keyframe `offset`: either a
finite value or one of the special values produced by division. -/
inductive JSVal where
  | num : ℚ → JSVal
  | posInf : JSVal
  | negInf : JSVal
  | nan : JSVal
deriving DecidableEq, Repr

/-- JavaScript division `x / d` on finite operands: ordinary division when
`d ≠ 0`, otherwise `±Infinity` (sign of `x`) or `NaN` for `0 / 0`. -/
def jsDiv (x d : ℚ) : JSVal :=
  if d = 0 then
    if 0 < x then JSVal.posInf
    else if x < 0 then JSVal.negInf
    else JSVal.nan
  else JSVal.num (x / d)

/-- The boolean "a may stay before b" relation induced by the JavaScript
comparator `(a, b) => a - b` (ascending): `a` precedes `b` unless the
comparator is positive; a `NaN` comparator result counts as `0`
(ECMAScript `CompareArrayElements`). -/
def jsValLE : JSVal → JSVal → Bool
  | JSVal.nan, _ => true
  | _, JSVal.nan => true
  | JSVal.num x, JSVal.num y => decide (x ≤ y)
  | JSVal.num _, JSVal.posInf => true
  | JSVal.num _, JSVal.negInf => false
  | JSVal.posInf, JSVal.num _ => false
  | JSVal.negInf, JSVal.num _ => true
  | JSVal.posInf, JSVal.posInf => true
  | JSVal.negInf, JSVal.negInf => true
  | JSVal.posInf, JSVal.negInf => false
  | JSVal.negInf, JSVal.posInf => true

/-- One entry of the `tweens` object handed to `tween`, in `Object.entries`
order.  `key = some q` models a property key whose string parses as the
number `q` (a "time entry", `isNaN` is false); `key = none` models a
non-numeric option key (the option's name and value are not inspected by
any property we verify; the name is assumed distinct from `"duration"`).
`tag` identifies the step data object the entry carries. -/
structure Entry where
  key : Option ℚ
  tag : Nat
deriving DecidableEq, Repr

/-- A compiled keyframe: the step data object (by tag) together with the
`offset` the compiler wrote into it. -/
structure KeyFrame where
  tag : Nat
  offset : JSVal
deriving DecidableEq, Repr

/-- The "a may stay before b" relation of the descending entry sort
`([keyA],[keyB]) => keyB - keyA` in `tween`: on two numeric keys it keeps
`a` first iff `keyB ≤ keyA`; as soon as a non-numeric key is involved the
comparator is `NaN`, coerced to `0`, so the pair may stay in order. -/
def entryLE (a b : Entry) : Bool :=
  match a.key, b.key with
  | some x, some y => decide (y ≤ x)
  | _, _ => true

/-- Stable insertion of `x` into `l`: `x` is placed after every element
that may stay before it, as a stable sort does with a later-arriving
element. -/
def insStable (le : α → α → Bool) (x : α) : List α → List α
  | [] => [x]
  | y :: ys => if le y x then y :: insStable le x ys else x :: y :: ys

/-- Stable sort modelling `Array.prototype.sort(comparator)`: elements are
taken left to right and each is inserted after all elements that may stay
before it. -/
def sortJS (le : α → α → Bool) (l : List α) : List α :=
  l.foldl (fun acc x => insStable le x acc) []

/-- The `forEach` body of `tween` over the sorted entry list (source lines
88-101), threading the element index `idx`, the mutable `options.duration`
and the `keyFrames` accumulator: an option entry only writes an option; a
time entry at `idx = 0` fixes `duration` to its key (`timeOrOpts * 1`),
and every time entry pushes its step with
`offset = timeOrOpts / options.duration`. -/
def processEntries : List Entry → Nat → ℚ → List KeyFrame → ℚ × List KeyFrame
  | [], _, dur, kfs => (dur, kfs)
  | e :: rest, idx, dur, kfs =>
    match e.key with
    | none => processEntries rest (idx + 1) dur kfs
    | some q =>
      let dur' := if idx = 0 then q else dur
      processEntries rest (idx + 1) dur' (kfs ++ [⟨e.tag, jsDiv q dur'⟩])

/-- The keyframe compiler `tween` (source lines 73-112), restricted to the
data the claims inspect: from the entry list of the `tweens` object it
returns the final `options.duration` together with the keyframe list,
sorted ascending by `offset` with the comparator `(a, b) => a.offset -
b.offset`. -/
def tween (entries : List Entry) : ℚ × List KeyFrame :=
  let p := processEntries (sortJS entryLE entries) 0 0 []
  (p.1, sortJS (fun a b => jsValLE a.offset b.offset) p.2)

example : tween [⟨some 0, 7⟩] = (0, [⟨7, JSVal.nan⟩]) := rfl
example : tween [⟨none, 0⟩, ⟨some (1/2), 1⟩] = (0, [⟨1, JSVal.posInf⟩]) := by
  norm_num [tween, sortJS, insStable, processEntries, entryLE, jsDiv, jsValLE]
example : tween [⟨some 3, 0⟩, ⟨some 12, 1⟩, ⟨some 6, 2⟩] =
    (12, [⟨0, JSVal.num (1/4)⟩, ⟨2, JSVal.num (1/2)⟩, ⟨1, JSVal.num 1⟩]) := by
  norm_num [tween, sortJS, insStable, processEntries, entryLE, jsDiv, jsValLE]

theorem insStable_perm (le : α → α → Bool) (x : α) (l : List α) :
    List.Perm (insStable le x l) (x :: l) := by
  induction l with
  | nil => simp [insStable]
  | cons y ys ih =>
    by_cases h : le y x = true
    · simp only [insStable, h, if_pos]
      exact (ih.cons y).trans (List.Perm.swap x y ys)
    · simp [insStable, h]

theorem sortJS_aux_perm (le : α → α → Bool) (l acc : List α) :
    List.Perm (l.foldl (fun acc x => insStable le x acc) acc) (acc ++ l) := by
  induction l generalizing acc with
  | nil => simp
  | cons x xs ih =>
    have h1 : (x :: xs).foldl (fun acc x => insStable le x acc) acc
        = xs.foldl (fun acc x => insStable le x acc) (insStable le x acc) := rfl
    rw [h1]
    exact ((ih _).trans ((insStable_perm le x acc).append_right xs)).trans
      List.perm_middle.symm

theorem sortJS_perm (le : α → α → Bool) (l : List α) :
    List.Perm (sortJS le l) l := by
  simpa [sortJS] using sortJS_aux_perm le l []

theorem mem_insStable {le : α → α → Bool} {x z : α} {l : List α}
    (h : z ∈ insStable le x l) : z = x ∨ z ∈ l :=
  List.mem_cons.mp ((insStable_perm le x l).mem_iff.mp h)

theorem pairwise_insStable {le : α → α → Bool} {x : α} {l : List α}
    (htot : ∀ y ∈ l, le x y = true ∨ le y x = true)
    (htrans : ∀ y ∈ l, ∀ z ∈ l, le x y = true → le y z = true → le x z = true)
    (hl : l.Pairwise (fun a b => le a b = true)) :
    (insStable le x l).Pairwise (fun a b => le a b = true) := by
  induction l with
  | nil => simp [insStable]
  | cons y ys ih =>
    rw [List.pairwise_cons] at hl
    by_cases h : le y x = true
    · simp only [insStable, h, if_pos, List.pairwise_cons]
      refine ⟨?_, ?_⟩
      · intro z hz
        rcases mem_insStable hz with rfl | hz
        · exact h
        · exact hl.1 z hz
      · exact ih (fun a ha => htot a (List.mem_cons_of_mem y ha))
          (fun a ha b hb => htrans a (List.mem_cons_of_mem y ha)
            b (List.mem_cons_of_mem y hb)) hl.2
    · have hxy : le x y = true := by
        rcases htot y (List.mem_cons_self y ys) with h' | h'
        · exact h'
        · exact absurd h' h
      simp only [insStable, h, if_neg, Bool.false_eq_true, not_false_iff,
        List.pairwise_cons]
      refine ⟨?_, hl.1, hl.2⟩
      intro z hz
      rcases List.mem_cons.mp hz with rfl | hz
      · exact hxy
      · exact htrans y (List.mem_cons_self y ys)
          z (List.mem_cons_of_mem y hz) hxy (hl.1 z hz)

theorem pairwise_sortJS {le : α → α → Bool} (P : α → Prop) {l : List α}
    (hP : ∀ a ∈ l, P a)
    (htot : ∀ a b, P a → P b → le a b = true ∨ le b a = true)
    (htrans : ∀ a b c, P a → P b → P c → le a b = true → le b c = true →
      le a c = true) :
    (sortJS le l).Pairwise (fun a b => le a b = true) := by
  suffices h : ∀ acc : List α, (∀ a ∈ acc, P a) →
      acc.Pairwise (fun a b => le a b = true) →
      (l.foldl (fun acc x => insStable le x acc) acc).Pairwise
        (fun a b => le a b = true) by
    exact h [] (by simp) (by simp)
  induction l with
  | nil => intro acc _ hacc; simpa using hacc
  | cons x xs ih =>
    intro acc haccP hacc
    have hx : P x := hP x (List.mem_cons_self x xs)
    have hinsP : ∀ a ∈ insStable le x acc, P a := by
      intro a ha
      rcases mem_insStable ha with rfl | ha
      · exact hx
      · exact haccP a ha
    refine ih (fun a ha => hP a (List.mem_cons_of_mem x ha)) (insStable le x acc)
      hinsP ?_
    exact pairwise_insStable
      (fun y hy => (htot x y hx (haccP y hy)).imp id id)
      (fun y hy z hz => htrans x y z hx (haccP y hy) (haccP z hz)) hacc

theorem processEntries_of_ne_zero : ∀ (l : List Entry) (idx : Nat) (dur : ℚ)
    (kfs : List KeyFrame), idx ≠ 0 → (∀ e ∈ l, e.key.isSome) →
    processEntries l idx dur kfs =
      (dur, kfs ++ l.map fun e => ⟨e.tag, jsDiv (e.key.getD 0) dur⟩)
  | [], _, dur, kfs, _, _ => by simp [processEntries]
  | e :: rest, idx, dur, kfs, hidx, hnum => by
    obtain ⟨q, hq⟩ := Option.isSome_iff_exists.mp
      (hnum e (List.mem_cons_self e rest))
    have hrest : ∀ e' ∈ rest, e'.key.isSome :=
      fun e' h => hnum e' (List.mem_cons_of_mem e h)
    simp only [processEntries, hq, if_neg hidx]
    rw [processEntries_of_ne_zero rest (idx + 1) dur _ (Nat.succ_ne_zero idx)
      hrest]
    simp [hq]

theorem processEntries_cons_zero (e : Entry) (rest : List Entry) (q : ℚ)
    (hq : e.key = some q) (hrest : ∀ e' ∈ rest, e'.key.isSome) :
    processEntries (e :: rest) 0 0 [] =
      (q, (e :: rest).map fun e' => ⟨e'.tag, jsDiv (e'.key.getD 0) q⟩) := by
  simp only [processEntries, hq, if_true]
  rw [processEntries_of_ne_zero rest (0 + 1) q _ (Nat.succ_ne_zero 0) hrest]
  simp [hq]

theorem jsValLE_num (x y : ℚ) :
    jsValLE (JSVal.num x) (JSVal.num y) = decide (x ≤ y) := rfl

theorem entryLE_some {a b : Entry} {x y : ℚ} (ha : a.key = some x)
    (hb : b.key = some y) : entryLE a b = decide (y ≤ x) := by
  simp [entryLE, ha, hb]

/-- C1 (amended): for every `tween` input whose keys are all numeric and
that has at least one entry, the compiled `options.duration` is the
numerically largest key `M`; if moreover every key is non-negative and
`M > 0`, then the compiled keyframe list is non-decreasing in `offset`,
every offset is a finite number in `[0, 1]`, and some keyframe (the one
built from the maximum key) has offset exactly `1`. -/
theorem tween_allNumeric_spec (entries : List Entry) (M : ℚ)
    (hnum : ∀ e ∈ entries, e.key.isSome)
    (hmem : ∃ e ∈ entries, e.key = some M)
    (hub : ∀ e ∈ entries, ∀ q, e.key = some q → q ≤ M) :
    (tween entries).1 = M ∧
    ((∀ e ∈ entries, ∀ q, e.key = some q → 0 ≤ q) → 0 < M →
      ((tween entries).2.Pairwise fun a b => jsValLE a.offset b.offset = true) ∧
      (∀ kf ∈ (tween entries).2, ∃ q, kf.offset = JSVal.num q ∧
        0 ≤ q ∧ q ≤ 1) ∧
      (∃ kf ∈ (tween entries).2, kf.offset = JSVal.num 1)) := by
  have hperm := sortJS_perm entryLE entries
  have hSnum : ∀ e ∈ sortJS entryLE entries, e.key.isSome :=
    fun e he => hnum e (hperm.mem_iff.mp he)
  have hSub : ∀ e ∈ sortJS entryLE entries, ∀ q, e.key = some q → q ≤ M :=
    fun e he => hub e (hperm.mem_iff.mp he)
  have hsorted : (sortJS entryLE entries).Pairwise
      fun a b => entryLE a b = true := by
    refine @pairwise_sortJS _ entryLE (fun e => e.key.isSome = true) entries
      hnum ?_ ?_
    · intro a b ha hb
      obtain ⟨x, hx⟩ := Option.isSome_iff_exists.mp ha
      obtain ⟨y, hy⟩ := Option.isSome_iff_exists.mp hb
      rw [entryLE_some hx hy, entryLE_some hy hx]
      rcases le_total y x with h | h
      · exact Or.inl (by simpa using h)
      · exact Or.inr (by simpa using h)
    · intro a b c ha hb hc hab hbc
      obtain ⟨x, hx⟩ := Option.isSome_iff_exists.mp ha
      obtain ⟨y, hy⟩ := Option.isSome_iff_exists.mp hb
      obtain ⟨z, hz⟩ := Option.isSome_iff_exists.mp hc
      rw [entryLE_some hx hy] at hab
      rw [entryLE_some hy hz] at hbc
      rw [entryLE_some hx hz]
      simp only [decide_eq_true_eq] at hab hbc ⊢
      exact hbc.trans hab
  obtain ⟨eM, heM, hkeyM⟩ := hmem
  have heMS : eM ∈ sortJS entryLE entries := hperm.mem_iff.mpr heM
  cases hS : sortJS entryLE entries with
  | nil => rw [hS] at heMS; cases heMS
  | cons h0 t =>
    rw [hS] at hSnum hSub hsorted heMS
    obtain ⟨q0, hq0⟩ :=
      Option.isSome_iff_exists.mp (hSnum h0 (List.mem_cons_self h0 t))
    have hhead : ∀ b ∈ t, entryLE h0 b = true :=
      (List.pairwise_cons.mp hsorted).1
    have hq0M : q0 = M := by
      have h1 : q0 ≤ M :=
        hSub h0 (List.mem_cons_self h0 t) q0 hq0
      have h2 : M ≤ q0 := by
        rcases List.mem_cons.mp heMS with rfl | hMt
        · rw [hkeyM] at hq0; exact le_of_eq (Option.some_inj.mp hq0)
        · have := hhead eM hMt
          rw [entryLE_some hq0 hkeyM] at this
          simpa using this
      exact le_antisymm h1 h2
    subst hq0M
    have hmapped : processEntries (h0 :: t) 0 0 [] =
        (q0, (h0 :: t).map fun e' => ⟨e'.tag, jsDiv (e'.key.getD 0) q0⟩) :=
      processEntries_cons_zero h0 t q0 hq0
        (fun e' he' => hSnum e' (List.mem_cons_of_mem h0 he'))
    have htw : tween entries =
        (q0, sortJS (fun a b => jsValLE a.offset b.offset)
          ((h0 :: t).map fun e' => ⟨e'.tag, jsDiv (e'.key.getD 0) q0⟩)) := by
      unfold tween
      rw [hS, hmapped]
    refine ⟨by rw [htw], ?_⟩
    intro hnn hMpos
    have hMne : q0 ≠ 0 := ne_of_gt hMpos
    have hSnn : ∀ e ∈ h0 :: t, ∀ q, e.key = some q → 0 ≤ q := by
      intro e he q hq
      exact hnn e (hperm.mem_iff.mp (hS ▸ he)) q hq
    have hoffs : ∀ kf ∈ (h0 :: t).map
        (fun e' => KeyFrame.mk e'.tag (jsDiv (e'.key.getD 0) q0)),
        ∃ q, kf.offset = JSVal.num q ∧ 0 ≤ q ∧ q ≤ 1 := by
      intro kf hkf
      obtain ⟨e, he, rfl⟩ := List.mem_map.mp hkf
      obtain ⟨qe, hqe⟩ := Option.isSome_iff_exists.mp
        (hSnum e he)
      have hqe0 : 0 ≤ qe := hSnn e he qe hqe
      have hqeM : qe ≤ q0 := hSub e he qe hqe
      refine ⟨qe / q0, ?_, div_nonneg hqe0 (le_of_lt hMpos),
        (div_le_one hMpos).mpr hqeM⟩
      simp [hqe, jsDiv, hMne]
    have hres : (tween entries).2 = sortJS (fun a b => jsValLE a.offset b.offset)
        ((h0 :: t).map fun e' => ⟨e'.tag, jsDiv (e'.key.getD 0) q0⟩) := by
      rw [htw]
    have hperm2 := sortJS_perm (fun a b => jsValLE a.offset b.offset)
      ((h0 :: t).map fun e' => KeyFrame.mk e'.tag (jsDiv (e'.key.getD 0) q0))
    refine ⟨?_, ?_, ?_⟩
    · rw [hres]
      refine @pairwise_sortJS KeyFrame (fun a b => jsValLE a.offset b.offset)
        (fun kf => ∃ q, kf.offset = JSVal.num q)
        ((h0 :: t).map fun e' => KeyFrame.mk e'.tag (jsDiv (e'.key.getD 0) q0))
        ?_ ?_ ?_
      · intro a ha
        obtain ⟨q, hq, _, _⟩ := hoffs a ha
        exact ⟨q, hq⟩
      · intro a b ⟨x, hx⟩ ⟨y, hy⟩
        simp only [hx, hy, jsValLE_num]
        rcases le_total x y with h | h
        · exact Or.inl (by simpa using h)
        · exact Or.inr (by simpa using h)
      · intro a b c ⟨x, hx⟩ ⟨y, hy⟩ ⟨z, hz⟩ hab hbc
        simp only [hx, hy, jsValLE_num] at hab
        simp only [hy, hz, jsValLE_num] at hbc
        simp only [hx, hz, jsValLE_num]
        simp only [decide_eq_true_eq] at hab hbc ⊢
        exact hab.trans hbc
    · intro kf hkf
      rw [hres] at hkf
      exact hoffs kf (hperm2.mem_iff.mp hkf)
    · have hin : KeyFrame.mk eM.tag (jsDiv (eM.key.getD 0) q0) ∈
          (h0 :: t).map fun e' => KeyFrame.mk e'.tag (jsDiv (e'.key.getD 0) q0) :=
        List.mem_map.mpr ⟨eM, heMS, rfl⟩
      refine ⟨KeyFrame.mk eM.tag (jsDiv (eM.key.getD 0) q0), ?_, ?_⟩
      · rw [hres]
        exact hperm2.mem_iff.mpr hin
      · simp [hkeyM, jsDiv, hMne, div_self]

/-- C1, counterexample to the claim as stated.  The input entry list models
`{easing: ..., "0.5": step}`: its only time-keyed entry is `0.5`, yet the
compiled duration is `0`, not `0.5` (the option entry occupies index 0 of
the sorted list, so the `idx == 0` branch that fixes the duration never
runs on a time entry), and the produced offset is `0.5 / 0 = Infinity`,
which does not lie in `[0, 1]`. -/
theorem tween_option_first_counterexample :
    (tween [⟨none, 0⟩, ⟨some (1/2), 1⟩]).1 = 0 ∧
    (tween [⟨none, 0⟩, ⟨some (1/2), 1⟩]).1 ≠ 1/2 ∧
    (tween [⟨none, 0⟩, ⟨some (1/2), 1⟩]).2 = [⟨1, JSVal.posInf⟩] ∧
    ∀ q : ℚ, JSVal.posInf ≠ JSVal.num q := by
  refine ⟨?_, ?_, ?_, fun q h => by cases h⟩ <;>
    norm_num [tween, sortJS, insStable, processEntries, entryLE, jsDiv]

/-- Witness for `tween_allNumeric_spec` at the concrete input
`{5: stepA, 20: stepB}`. -/
theorem tween_allNumeric_spec_witness :
    (tween [⟨some 5, 0⟩, ⟨some 20, 1⟩]).1 = 20 ∧
    (((tween [⟨some 5, 0⟩, ⟨some 20, 1⟩]).2.Pairwise
        fun a b => jsValLE a.offset b.offset = true) ∧
      (∀ kf ∈ (tween [⟨some 5, 0⟩, ⟨some 20, 1⟩]).2, ∃ q,
        kf.offset = JSVal.num q ∧ 0 ≤ q ∧ q ≤ 1) ∧
      (∃ kf ∈ (tween [⟨some 5, 0⟩, ⟨some 20, 1⟩]).2,
        kf.offset = JSVal.num 1)) := by
  have h := tween_allNumeric_spec [⟨some 5, 0⟩, ⟨some 20, 1⟩] 20
    (by intro e he; rcases (by simpa using he :
        e = (⟨some 5, 0⟩ : Entry) ∨ e = ⟨some 20, 1⟩) with rfl | rfl <;> rfl)
    ⟨⟨some 20, 1⟩, by simp, rfl⟩
    (by
      intro e he q hq
      rcases (by simpa using he :
          e = (⟨some 5, 0⟩ : Entry) ∨ e = ⟨some 20, 1⟩) with rfl | rfl <;>
        · obtain rfl := Option.some_inj.mp hq.symm
          norm_num)
  refine ⟨h.1, h.2 ?_ (by norm_num)⟩
  intro e he q hq
  rcases (by simpa using he :
      e = (⟨some 5, 0⟩ : Entry) ∨ e = ⟨some 20, 1⟩) with rfl | rfl <;>
    · obtain rfl := Option.some_inj.mp hq.symm
      norm_num

/-- C2: when every time entry of the input carries raw time `0` (and there
is at least one), the code fixes `duration = 0` and then computes every
offset as `0 / 0`, which is `NaN` — the `NaN` offsets are pushed into the
compiled keyframe list, contrary to the claim that offsets are `0` and no
division by zero happens. -/
theorem tween_all_zero_times_nan (entries : List Entry)
    (hne : entries ≠ []) (h0 : ∀ e ∈ entries, e.key = some 0) :
    (tween entries).1 = 0 ∧
    ∀ kf ∈ (tween entries).2, kf.offset = JSVal.nan := by
  have hperm := sortJS_perm entryLE entries
  have hS0 : ∀ e ∈ sortJS entryLE entries, e.key = some 0 :=
    fun e he => h0 e (hperm.mem_iff.mp he)
  cases hS : sortJS entryLE entries with
  | nil =>
    rw [hS] at hperm
    exact absurd hperm.symm.eq_nil hne
  | cons e0 t =>
    rw [hS] at hS0
    have hmapped : processEntries (e0 :: t) 0 0 [] =
        (0, (e0 :: t).map fun e' => ⟨e'.tag, jsDiv (e'.key.getD 0) 0⟩) :=
      processEntries_cons_zero e0 t 0 (hS0 e0 (List.mem_cons_self e0 t))
        (fun e' he' => by
          rw [hS0 e' (List.mem_cons_of_mem e0 he')]; rfl)
    have htw : tween entries =
        (0, sortJS (fun a b => jsValLE a.offset b.offset)
          ((e0 :: t).map fun e' => ⟨e'.tag, jsDiv (e'.key.getD 0) 0⟩)) := by
      unfold tween
      rw [hS, hmapped]
    refine ⟨by rw [htw], ?_⟩
    intro kf hkf
    rw [htw] at hkf
    have hmem := (sortJS_perm (fun a b => jsValLE a.offset b.offset)
      ((e0 :: t).map fun e' =>
        KeyFrame.mk e'.tag (jsDiv (e'.key.getD 0) 0))).mem_iff.mp hkf
    obtain ⟨e, he, rfl⟩ := List.mem_map.mp hmem
    rw [hS0 e he]
    simp [jsDiv]

/-- Witness for `tween_all_zero_times_nan` at the single-entry input
`{0: step}`. -/
theorem tween_all_zero_times_nan_witness :
    (tween [⟨some 0, 7⟩]).1 = 0 ∧
    ∀ kf ∈ (tween [⟨some 0, 7⟩]).2, kf.offset = JSVal.nan :=
  tween_all_zero_times_nan [⟨some 0, 7⟩] (by simp)
    (by intro e he; simpa using congrArg Entry.key (by simpa using he))

/-- A timed effect as the composer and synchronizer see it: `delay` and
`duration` are its computed timing, `id` its label (`null` modelled as
`none`), `currentTime` the animation's current playback position.  The
source mutates these in place; the embedding passes updated copies. -/
structure Anim where
  delay : ℚ
  duration : ℚ
  id : Option String
  currentTime : ℚ
deriving DecidableEq, Repr

/-- One variadic argument of `group` / `sequence`, discriminated the way
the source does by `constructor.name`: a single `Animation`, an `Array`
of animations, a `String` label, or a value of any other constructor
(which both functions silently skip). -/
inductive Item where
  | anim : Anim → Item
  | arr : List Anim → Item
  | str : String → Item
  | other : Item
deriving DecidableEq, Repr

/-- `timing.delay += time; effect.updateTiming(timing)` — the only timing
mutation `group` performs. -/
def shiftDelay (t : ℚ) (a : Anim) : Anim := { a with delay := a.delay + t }

/-- The composer `group` (source lines 115-141): every animation argument
and every member of an array argument gets its `delay` increased by `time`
and is pushed onto the result; any other argument falls through the
`switch` untouched. -/
def group (time : ℚ) : List Item → List Anim
  | [] => []
  | Item.anim a :: rest => shiftDelay time a :: group time rest
  | Item.arr l :: rest => l.map (shiftDelay time) ++ group time rest
  | Item.str _ :: rest => group time rest
  | Item.other :: rest => group time rest

/-- The animations reachable in a `group` argument list, flattening one
level of array nesting, in encounter order. -/
def flattenItems : List Item → List Anim
  | [] => []
  | Item.anim a :: rest => a :: flattenItems rest
  | Item.arr l :: rest => l ++ flattenItems rest
  | Item.str _ :: rest => flattenItems rest
  | Item.other :: rest => flattenItems rest

/-- The loop state of `sequence`: the running cursor `time`, the pending
`label`, and the `animations` accumulated so far. -/
structure SeqState where
  time : ℚ
  label : Option String
  animations : List Anim
deriving DecidableEq, Repr

/-- The `forEach` body of the `Array` case of `sequence` (source lines
161-170): each member's `delay` grows by the cursor `time0`, the running
`duration` maximum is updated, the member's `id` is set to the current
label and the label is cleared; members are appended in order. -/
def seqArr (time0 : ℚ) : Option String → ℚ → List Anim →
    Option String × ℚ × List Anim
  | lab, dmax, [] => (lab, dmax, [])
  | lab, dmax, a :: rest =>
    let p := seqArr time0 none (max dmax a.duration) rest
    (p.1, p.2.1, { a with delay := a.delay + time0, id := lab } :: p.2.2)

/-- One iteration of the `sequence` loop (source lines 151-186): a string
sets the pending label; a single animation is shifted by the cursor,
labelled, and advances the cursor by its duration; an array is processed
by `seqArr` and advances the cursor once by the accumulated maximum
duration; anything else falls through the `switch` untouched. -/
def seqStep (st : SeqState) : Item → SeqState
  | Item.str s => { st with label := some s }
  | Item.anim a =>
    { time := st.time + a.duration, label := none,
      animations :=
        st.animations ++ [{ a with delay := a.delay + st.time, id := st.label }] }
  | Item.arr l =>
    let p := seqArr st.time st.label 0 l
    { time := st.time + p.2.1, label := p.1,
      animations := st.animations ++ p.2.2 }
  | Item.other => st

/-- The composer `sequence` (source lines 144-189): the argument list is
scanned left to right with cursor initialized to `time`, label to `null`,
and an empty result list. -/
def sequence (time : ℚ) (args : List Item) : List Anim :=
  (args.foldl seqStep ⟨time, none, []⟩).animations

/-- The `start` argument of `play`: a number, a string label, or absent. -/
inductive Start where
  | num : ℚ → Start
  | label : String → Start
  | absent
deriving DecidableEq, Repr

/-- Label resolution in `play` (source lines 36-41): a string `start` is
replaced by the `delay` of the first animation whose `id` equals it,
`undefined` (`none`) when there is no match. -/
def resolveStart (anims : List Anim) : Start → Option ℚ
  | Start.num q => some q
  | Start.label s => (anims.find? fun a => decide (a.id = some s)).map Anim.delay
  | Start.absent => none

/-- The seek loop of `play` (source lines 50-54): each animation's
`currentTime` becomes `start ?? animation.currentTime`, and the
`currentTime` accumulator (initialized to `0`) is overwritten with that
value at every iteration. -/
def seekAux (resolved : Option ℚ) (acc : ℚ) : List Anim → ℚ × List Anim
  | [] => (acc, [])
  | a :: rest =>
    let ct := resolved.getD a.currentTime
    let p := seekAux resolved ct rest
    (p.1, { a with currentTime := ct } :: p.2)

/-- The observable outcome of `play`: the real-time span of the timer
animation (`Math.abs(dur)`), the logical time the promise resolves with,
and the final animation states. -/
structure PlayResult where
  waitDuration : ℚ
  finalTime : ℚ
  animations : List Anim
deriving DecidableEq, Repr

/-- The synchronizer `play` (source lines 31-70): resolve `start`, seek
every animation (threading the `currentTime` accumulator), wait
`Math.abs(dur)` of real time, then add the signed `dur` to the accumulator
and freeze every animation at that final value, which the promise
resolves with. -/
def play (dur : ℚ) (start : Start) (anims : List Anim) : PlayResult :=
  let s := seekAux (resolveStart anims start) 0 anims
  let final := s.1 + dur
  ⟨|dur|, final, s.2.map fun a => { a with currentTime := final }⟩

/-- The pre-seek "own position" the accumulator ends at when `start` is
undefined: the `currentTime` of the last animation, `0` when there are
none. -/
def lastCT (anims : List Anim) : ℚ := (anims.map Anim.currentTime).getLastD 0

example :
    sequence 0 [Item.str "A", Item.anim ⟨0, 40, none, 0⟩,
      Item.anim ⟨0, 10, none, 0⟩] =
    [⟨0, 40, some "A", 0⟩, ⟨40, 10, none, 0⟩] := by
  norm_num [sequence, seqStep, List.foldl]
example :
    sequence 0 [Item.arr [⟨0, 500, none, 0⟩, ⟨0, 300, none, 0⟩],
      Item.anim ⟨0, 100, none, 0⟩] =
    [⟨0, 500, none, 0⟩, ⟨0, 300, none, 0⟩, ⟨500, 100, none, 0⟩] := by
  norm_num [sequence, seqStep, seqArr, List.foldl]
example : group 3 [Item.arr [⟨1, 5, none, 0⟩], Item.anim ⟨2, 6, none, 0⟩] =
    [⟨4, 5, none, 0⟩, ⟨5, 6, none, 0⟩] := by
  norm_num [group, shiftDelay]
example : play (-100) Start.absent [⟨0, 5, none, 7⟩] =
    ⟨100, -93, [⟨0, 5, none, -93⟩]⟩ := by
  norm_num [play, seekAux, resolveStart]

theorem group_eq_map (t : ℚ) : ∀ (args : List Item),
    (∀ i ∈ args, (∃ a, i = Item.anim a) ∨ (∃ l, i = Item.arr l)) →
    group t args = (flattenItems args).map (shiftDelay t)
  | [], _ => rfl
  | i :: rest, h => by
    have hrest := fun j hj => h j (List.mem_cons_of_mem i hj)
    rcases h i (List.mem_cons_self i rest) with ⟨a, rfl⟩ | ⟨l, rfl⟩
    · simp [group, flattenItems, group_eq_map t rest hrest]
    · simp [group, flattenItems, group_eq_map t rest hrest]

/-- C3: `group t` adds `t` to the delay of every reachable effect, leaves
every other field (in particular `duration`) unchanged, and returns the
flattened list of touched effects in encounter order; a second `group t'`
over the result accumulates to a total shift of `t + t'`. -/
theorem group_spec (t t' : ℚ) (args : List Item)
    (h : ∀ i ∈ args, (∃ a, i = Item.anim a) ∨ (∃ l, i = Item.arr l)) :
    group t args = (flattenItems args).map (shiftDelay t) ∧
    group t' [Item.arr (group t args)] =
      (flattenItems args).map (shiftDelay (t + t')) ∧
    ∀ a : Anim, (shiftDelay t a).delay = a.delay + t ∧
      (shiftDelay t a).duration = a.duration ∧
      (shiftDelay t a).id = a.id ∧
      (shiftDelay t a).currentTime = a.currentTime := by
  have h1 := group_eq_map t args h
  refine ⟨h1, ?_, fun a => ⟨rfl, rfl, rfl, rfl⟩⟩
  rw [show group t' [Item.arr (group t args)] = (group t args).map (shiftDelay t')
    from by simp [group], h1, List.map_map]
  refine List.map_congr_left fun a _ => ?_
  simp [shiftDelay, Function.comp, add_assoc]

/-- Witness for `group_spec` at `group 3 [[a1], a2]` (an array argument
and a single-animation argument). -/
theorem group_spec_witness :
    group 3 [Item.arr [⟨1, 5, none, 0⟩], Item.anim ⟨2, 6, some "x", 0⟩] =
      (flattenItems [Item.arr [⟨1, 5, none, 0⟩],
        Item.anim ⟨2, 6, some "x", 0⟩]).map (shiftDelay 3) ∧
    group 4 [Item.arr (group 3 [Item.arr [⟨1, 5, none, 0⟩],
        Item.anim ⟨2, 6, some "x", 0⟩])] =
      (flattenItems [Item.arr [⟨1, 5, none, 0⟩],
        Item.anim ⟨2, 6, some "x", 0⟩]).map (shiftDelay (3 + 4)) ∧
    ∀ a : Anim, (shiftDelay 3 a).delay = a.delay + 3 ∧
      (shiftDelay 3 a).duration = a.duration ∧
      (shiftDelay 3 a).id = a.id ∧
      (shiftDelay 3 a).currentTime = a.currentTime :=
  group_spec 3 4 [Item.arr [⟨1, 5, none, 0⟩], Item.anim ⟨2, 6, some "x", 0⟩]
    (by
      intro i hi
      rcases (by simpa using hi : i = Item.arr [⟨1, 5, none, 0⟩] ∨
          i = Item.anim ⟨2, 6, some "x", 0⟩) with rfl | rfl
      · exact Or.inr ⟨_, rfl⟩
      · exact Or.inl ⟨_, rfl⟩)

/-- C8: an argument whose runtime constructor is not recognized falls
through the `switch` of `group` and of `sequence` without being appended,
without moving the cursor and without touching the pending label; for
`group` a string argument is equally unrecognized.  Arguments before and
after it are processed exactly as without it. -/
theorem unrecognized_item_skipped (t : ℚ) (s : String) (s0 : SeqState)
    (xs ys : List Item) :
    group t (xs ++ Item.other :: ys) = group t (xs ++ ys) ∧
    group t (xs ++ Item.str s :: ys) = group t (xs ++ ys) ∧
    (xs ++ Item.other :: ys).foldl seqStep s0 = (xs ++ ys).foldl seqStep s0 ∧
    sequence t (xs ++ Item.other :: ys) = sequence t (xs ++ ys) := by
  refine ⟨?_, ?_, ?_, ?_⟩
  · induction xs with
    | nil => simp [group]
    | cons i rest ih => cases i <;> simp [group, ih]
  · induction xs with
    | nil => simp [group]
    | cons i rest ih => cases i <;> simp [group, ih]
  · simp [List.foldl_append, seqStep]
  · simp [sequence, List.foldl_append, seqStep]

/-- C9: an empty array argument of `sequence` is a no-op: the cursor
advances by `0`, nothing is appended, the pending label survives, and a
label set just before an empty group still goes to the first effect of
the next item. -/
theorem empty_array_item_skipped (s0 : SeqState) (xs ys : List Item)
    (L : String) (a : Anim) :
    seqStep s0 (Item.arr []) = s0 ∧
    (xs ++ Item.arr [] :: ys).foldl seqStep s0 = (xs ++ ys).foldl seqStep s0 ∧
    sequence 0 [Item.str L, Item.arr [], Item.anim a] =
      [{ a with delay := a.delay + 0, id := some L }] := by
  have hstep : ∀ st : SeqState, seqStep st (Item.arr []) = st := by
    intro st; cases st; simp [seqStep, seqArr]
  refine ⟨hstep s0, ?_, ?_⟩
  · simp [List.foldl_append, hstep]
  · simp [sequence, seqStep, seqArr]

/-- C4: in `sequence(0, L, x, y)` with both original delays `0`, the
pending label is consumed by `x`, `y.id` is explicitly cleared to `null`,
and `y` starts when `x` ends. -/
theorem sequence_label_and_cursor (L : String) (x y : Anim)
    (hx : x.delay = 0) (hy : y.delay = 0) :
    (sequence 0 [Item.str L, Item.anim x, Item.anim y]).map Anim.id =
      [some L, none] ∧
    ∃ x' y', sequence 0 [Item.str L, Item.anim x, Item.anim y] = [x', y'] ∧
      x'.id = some L ∧ y'.id = none ∧ y'.delay = x'.delay + x'.duration := by
  refine ⟨by simp [sequence, seqStep], ?_⟩
  refine ⟨{ x with delay := x.delay + 0, id := some L },
    { y with delay := y.delay + (0 + x.duration), id := none }, ?_,
    rfl, rfl, ?_⟩
  · simp [sequence, seqStep]
  · simp [hx, hy]

/-- Witness for `sequence_label_and_cursor` with label "A" and two
concrete delay-0 effects. -/
theorem sequence_label_and_cursor_witness :
    (sequence 0 [Item.str "A", Item.anim ⟨0, 40, none, 0⟩,
        Item.anim ⟨0, 10, some "B", 0⟩]).map Anim.id = [some "A", none] ∧
    ∃ x' y', sequence 0 [Item.str "A", Item.anim ⟨0, 40, none, 0⟩,
        Item.anim ⟨0, 10, some "B", 0⟩] = [x', y'] ∧
      x'.id = some "A" ∧ y'.id = none ∧ y'.delay = x'.delay + x'.duration :=
  sequence_label_and_cursor "A" ⟨0, 40, none, 0⟩ ⟨0, 10, some "B", 0⟩ rfl rfl

theorem seqArr_none (time0 : ℚ) : ∀ (l : List Anim) (dmax : ℚ),
    seqArr time0 none dmax l =
      (none, (l.map Anim.duration).foldl max dmax,
       l.map fun a => { a with delay := a.delay + time0, id := none })
  | [], dmax => rfl
  | a :: rest, dmax => by
    simp [seqArr, seqArr_none time0 rest (max dmax a.duration)]

theorem seqArr_cons (time0 : ℚ) (lab : Option String) (dmax : ℚ) (a : Anim)
    (rest : List Anim) :
    seqArr time0 lab dmax (a :: rest) =
      (none, (rest.map Anim.duration).foldl max (max dmax a.duration),
       { a with delay := a.delay + time0, id := lab } ::
         rest.map fun a' => { a' with delay := a'.delay + time0, id := none }) := by
  simp [seqArr, seqArr_none time0 rest (max dmax a.duration)]

theorem le_foldl_max : ∀ (ds : List ℚ) (c : ℚ), c ≤ ds.foldl max c
  | [], _ => le_refl _
  | d :: rest, c => le_trans (le_max_left c d) (le_foldl_max rest (max c d))

theorem foldl_max_of_mem : ∀ (ds : List ℚ) (c x : ℚ), x ∈ ds →
    x ≤ ds.foldl max c
  | d :: rest, c, x, hx => by
    rcases List.mem_cons.mp hx with rfl | hx
    · exact le_trans (le_max_right c x) (le_foldl_max rest (max c x))
    · exact foldl_max_of_mem rest (max c d) x hx

theorem foldl_max_mem : ∀ (ds : List ℚ) (c : ℚ),
    ds.foldl max c = c ∨ ds.foldl max c ∈ ds
  | [], _ => Or.inl rfl
  | d :: rest, c => by
    rcases foldl_max_mem rest (max c d) with h | h
    · rcases max_choice c d with h' | h'
      · exact Or.inl (by rw [List.foldl_cons, h, h'])
      · exact Or.inr (by rw [List.foldl_cons, h, h']; exact List.mem_cons_self d rest)
    · exact Or.inr (List.mem_cons_of_mem d h)

/-- C5: a non-empty array item inside `sequence` starts all its members at
the current cursor (original delay preserved as an offset), gives the
pending label only to its first member (the rest get `null`), and then
advances the cursor once, by the maximum of the members' durations; in
particular `sequence(0, [e1(dur 500), e2(dur 300)], e3)` puts `e3` at
delay 500, not 800. -/
theorem sequence_nested_group_spec (st : SeqState) (a0 : Anim)
    (l : List Anim) (hd0 : 0 ≤ a0.duration) :
    (seqStep st (Item.arr (a0 :: l))).animations =
      st.animations ++
        ({ a0 with delay := a0.delay + st.time, id := st.label } ::
          l.map fun a => { a with delay := a.delay + st.time, id := none }) ∧
    (seqStep st (Item.arr (a0 :: l))).label = none ∧
    (∃ m, (seqStep st (Item.arr (a0 :: l))).time = st.time + m ∧
      m ∈ (a0 :: l).map Anim.duration ∧ ∀ a ∈ a0 :: l, a.duration ≤ m) ∧
    (sequence 0 [Item.arr [⟨0, 500, none, 0⟩, ⟨0, 300, none, 0⟩],
      Item.anim ⟨0, 100, none, 0⟩]).map Anim.delay = [0, 0, 500] := by
  have harr := seqArr_cons st.time st.label 0 a0 l
  refine ⟨by simp [seqStep, harr], by simp [seqStep, harr], ?_, ?_⟩
  · refine ⟨(l.map Anim.duration).foldl max (max 0 a0.duration),
      by simp [seqStep, harr], ?_, ?_⟩
    · rcases foldl_max_mem (l.map Anim.duration) (max 0 a0.duration) with h | h
      · rw [h, max_eq_right hd0]
        exact List.mem_map.mpr ⟨a0, List.mem_cons_self a0 l, rfl⟩
      · exact List.mem_map.mpr
          (by
            obtain ⟨a, ha, heq⟩ := List.mem_map.mp h
            exact ⟨a, List.mem_cons_of_mem a0 ha, heq⟩)
    · intro a ha
      rcases List.mem_cons.mp ha with rfl | ha
      · exact le_trans (le_max_right 0 a.duration)
          (le_foldl_max (l.map Anim.duration) (max 0 a.duration))
      · exact foldl_max_of_mem (l.map Anim.duration) (max 0 a0.duration)
          a.duration (List.mem_map.mpr ⟨a, ha, rfl⟩)
  · norm_num [sequence, seqStep, seqArr, List.foldl]

/-- Witness for `sequence_nested_group_spec` at a group of two effects
with durations 500 and 300 under a pending label. -/
theorem sequence_nested_group_spec_witness :
    (seqStep ⟨0, some "A", []⟩
        (Item.arr [⟨0, 500, none, 0⟩, ⟨0, 300, none, 0⟩])).animations =
      [] ++ ((⟨0 + 0, 500, some "A", 0⟩ : Anim) ::
        [(⟨0, 300, none, 0⟩ : Anim)].map
          fun a => { a with delay := a.delay + 0, id := none }) ∧
    (seqStep ⟨0, some "A", []⟩
        (Item.arr [⟨0, 500, none, 0⟩, ⟨0, 300, none, 0⟩])).label = none ∧
    (∃ m, (seqStep ⟨0, some "A", []⟩
        (Item.arr [⟨0, 500, none, 0⟩, ⟨0, 300, none, 0⟩])).time = 0 + m ∧
      m ∈ ((⟨0, 500, none, 0⟩ : Anim) :: [⟨0, 300, none, 0⟩]).map
        Anim.duration ∧
      ∀ a ∈ (⟨0, 500, none, 0⟩ : Anim) :: [(⟨0, 300, none, 0⟩ : Anim)],
        a.duration ≤ m) ∧
    (sequence 0 [Item.arr [⟨0, 500, none, 0⟩, ⟨0, 300, none, 0⟩],
      Item.anim ⟨0, 100, none, 0⟩]).map Anim.delay = [0, 0, 500] := by
  have h := sequence_nested_group_spec ⟨0, some "A", []⟩ ⟨0, 500, none, 0⟩
    [⟨0, 300, none, 0⟩] (by norm_num)
  simpa using h

theorem seekAux_some (q : ℚ) : ∀ (l : List Anim) (c : ℚ),
    seekAux (some q) c l =
      (if l = [] then c else q, l.map fun a => { a with currentTime := q })
  | [], c => by simp [seekAux]
  | a :: rest, c => by
    simp [seekAux, seekAux_some q rest q]

theorem seekAux_none : ∀ (l : List Anim) (c : ℚ),
    seekAux none c l = ((l.map Anim.currentTime).getLastD c, l)
  | [], c => by simp [seekAux]
  | a :: rest, c => by
    simp only [seekAux, seekAux_none rest a.currentTime, List.map_cons,
      List.getLastD_cons, Option.getD_none]

/-- C6: for every signed `dur`, `play` waits a real-time span of
`Math.abs(dur)` (the duration of the timer animation) but resolves with
the signed sum `currentTime + dur`: with a resolvable label the
synchronized `currentTime` is the labelled animation's `delay`, so the
result is `delay + dur` (every animation is frozen there); with no
`start`, the accumulator ends at the last animation's own position and the
result is that position plus the signed `dur`. -/
theorem play_signed_resolution (dur : ℚ) (anims : List Anim) (s : String)
    (a : Anim)
    (hfind : anims.find? (fun x => decide (x.id = some s)) = some a) :
    (play dur (Start.label s) anims).waitDuration = |dur| ∧
    (play dur (Start.label s) anims).finalTime = a.delay + dur ∧
    (∀ x ∈ (play dur (Start.label s) anims).animations,
      x.currentTime = a.delay + dur) ∧
    (play dur Start.absent anims).waitDuration = |dur| ∧
    (play dur Start.absent anims).finalTime = lastCT anims + dur := by
  have hne : anims ≠ [] :=
    List.ne_nil_of_mem (List.mem_of_find?_eq_some hfind)
  have hres : resolveStart anims (Start.label s) = some a.delay := by
    simp [resolveStart, hfind]
  refine ⟨rfl, ?_, ?_, rfl, ?_⟩
  · simp [play, hres, seekAux_some, hne]
  · intro x hx
    simp only [play, hres, seekAux_some, hne, if_neg hne] at hx
    obtain ⟨y, _, rfl⟩ := List.mem_map.mp hx
    rfl
  · simp [play, resolveStart, seekAux_none, lastCT]

/-- Witness for `play_signed_resolution`: two animations, the first
labelled "A" with delay 7, played with `dur = -100`: the timer runs for
100 time units while the promise resolves with `7 - 100 = -93`; without a
label it resolves with the last animation's position `9` minus 100. -/
theorem play_signed_resolution_witness :
    (play (-100) (Start.label "A")
      [⟨7, 5, some "A", 3⟩, ⟨1, 2, none, 9⟩]).waitDuration = 100 ∧
    (play (-100) (Start.label "A")
      [⟨7, 5, some "A", 3⟩, ⟨1, 2, none, 9⟩]).finalTime = -93 ∧
    (∀ x ∈ (play (-100) (Start.label "A")
      [⟨7, 5, some "A", 3⟩, ⟨1, 2, none, 9⟩]).animations,
      x.currentTime = -93) ∧
    (play (-100) Start.absent
      [⟨7, 5, some "A", 3⟩, ⟨1, 2, none, 9⟩]).waitDuration = 100 ∧
    (play (-100) Start.absent
      [⟨7, 5, some "A", 3⟩, ⟨1, 2, none, 9⟩]).finalTime = 9 + -100 := by
  have h := play_signed_resolution (-100)
    [⟨7, 5, some "A", 3⟩, ⟨1, 2, none, 9⟩] "A" ⟨7, 5, some "A", 3⟩ rfl
  obtain ⟨h1, h2, h3, h4, h5⟩ := h
  refine ⟨by rw [h1]; norm_num, by rw [h2]; norm_num,
    fun x hx => by rw [h3 x hx]; norm_num, by rw [h4]; norm_num,
    by rw [h5]; norm_num [lastCT]⟩

/-- C7: a label matching no animation id is not an error: resolution
yields `undefined`, `play` behaves exactly as with no `start` at all —
each animation is seeked to its own unchanged current time — and the
promise still resolves, with the unsynchronized final time. -/
theorem play_unresolved_label (dur : ℚ) (s : String) (anims : List Anim)
    (h : ∀ a ∈ anims, a.id ≠ some s) :
    resolveStart anims (Start.label s) = none ∧
    play dur (Start.label s) anims = play dur Start.absent anims ∧
    (seekAux (resolveStart anims (Start.label s)) 0 anims).2 = anims ∧
    (play dur (Start.label s) anims).finalTime = lastCT anims + dur := by
  have hfind : anims.find? (fun x => decide (x.id = some s)) = none :=
    List.find?_eq_none.mpr (fun x hx => by simp [h x hx])
  have hres : resolveStart anims (Start.label s) = none := by
    simp [resolveStart, hfind]
  refine ⟨hres, ?_, ?_, ?_⟩
  · unfold play
    rw [hres]
    rfl
  · simp [hres, seekAux_none]
  · simp [play, hres, seekAux_none, lastCT]

/-- Witness for `play_unresolved_label`: one animation labelled "B",
played towards the unresolvable label "A". -/
theorem play_unresolved_label_witness :
    resolveStart [⟨7, 5, some "B", 3⟩] (Start.label "A") = none ∧
    play 100 (Start.label "A") [⟨7, 5, some "B", 3⟩] =
      play 100 Start.absent [⟨7, 5, some "B", 3⟩] ∧
    (seekAux (resolveStart [⟨7, 5, some "B", 3⟩] (Start.label "A")) 0
      [⟨7, 5, some "B", 3⟩]).2 = [⟨7, 5, some "B", 3⟩] ∧
    (play 100 (Start.label "A") [⟨7, 5, some "B", 3⟩]).finalTime =
      lastCT [⟨7, 5, some "B", 3⟩] + 100 :=
  play_unresolved_label 100 "A" [⟨7, 5, some "B", 3⟩]
    (by intro a ha; rcases (by simpa using ha :
        a = (⟨7, 5, some "B", 3⟩ : Anim)) with rfl; simp)

/-- C10: with no animations under the root, `play` still resolves, and
resolves with exactly `dur`: the `currentTime` accumulator keeps its
initial value `0` and the final addition yields `0 + dur`. -/
theorem play_no_animations (dur : ℚ) (start : Start) :
    (play dur start []).finalTime = dur ∧
    (seekAux (resolveStart [] start) 0 []).1 = 0 ∧
    (play dur start []).animations = [] := by
  cases start <;> simp [play, seekAux, resolveStart]

end ArtHouse
